import Mathlib

/-!
Verification of the client-side email list processing pipeline
(email validator and email extractor) of the EduKester application.

Strings are modelled as `List Char`.  JavaScript's `String.prototype.trim`,
`String.prototype.split`, `String.prototype.toLowerCase` (ASCII part),
`Set` based deduplication, `Array.prototype.sort`, and the two regular
expressions of the source are translated into executable Lean functions.
-/

/-- Whitespace as recognised by the JavaScript regular-expression class `\\s`
and by `String.prototype.trim` (both use the same character set), given by
code point: TAB LF VT FF CR SPACE NBSP, U+1680, U+2000 to U+200A, LS PS,
U+202F, U+205F, U+3000 and the BOM U+FEFF. -/
def isJsWs (c : Char) : Bool :=
  c.toNat == 32 || c.toNat == 9 || c.toNat == 10 || c.toNat == 13 ||
  c.toNat == 11 || c.toNat == 12 || c.toNat == 160 || c.toNat == 5760 ||
  (decide (8192 ≤ c.toNat) && decide (c.toNat ≤ 8202)) ||
  c.toNat == 8232 || c.toNat == 8233 || c.toNat == 8239 || c.toNat == 8287 ||
  c.toNat == 12288 || c.toNat == 65279

/-- Separator characters of the validator's tokenizing split `/[,\s\n]+/`
(`\n` is already contained in `\s`). -/
def isSep (c : Char) : Bool := c == ',' || isJsWs c

/-- The 26 uppercase-to-lowercase ASCII letter pairs. -/
def lowerPairs : List (Char × Char) :=
  [('A', 'a'), ('B', 'b'), ('C', 'c'), ('D', 'd'), ('E', 'e'), ('F', 'f'),
   ('G', 'g'), ('H', 'h'), ('I', 'i'), ('J', 'j'), ('K', 'k'), ('L', 'l'),
   ('M', 'm'), ('N', 'n'), ('O', 'o'), ('P', 'p'), ('Q', 'q'), ('R', 'r'),
   ('S', 's'), ('T', 't'), ('U', 'u'), ('V', 'v'), ('W', 'w'), ('X', 'x'),
   ('Y', 'y'), ('Z', 'z')]

/-- ASCII case folding of one character, as `String.prototype.toLowerCase`
acts on the ASCII range (non-ASCII characters are modelled as fixed). -/
def jsLower (c : Char) : Char :=
  ((lowerPairs.find? (fun p => p.1 == c)).map Prod.snd).getD c

/-- Characters matched by the extractor's class `[a-zA-Z0-9._-]`, given by
code point: letters 65 to 90 and 97 to 122, digits 48 to 57, `.` 46, `_` 95,
`-` 45. -/
def isW (c : Char) : Bool :=
  (decide (97 ≤ c.toNat) && decide (c.toNat ≤ 122)) ||
  (decide (65 ≤ c.toNat) && decide (c.toNat ≤ 90)) ||
  (decide (48 ≤ c.toNat) && decide (c.toNat ≤ 57)) ||
  c.toNat == 46 || c.toNat == 95 || c.toNat == 45

/-- Characters matched by the validator's local-part atom class
`[^<>()[\]\\.,;:\s@"]`. -/
def isAtomChar (c : Char) : Bool :=
  !(c == '<' || c == '>' || c == '(' || c == ')' || c == '[' || c == ']' ||
    c == '\\' || c == '.' || c == ',' || c == ';' || c == ':' || c == '@' ||
    c == '"' || isJsWs c)

/-- Characters matched by the validator's hostname label class `[a-zA-Z\-0-9]`. -/
def hostLabelChar (c : Char) : Bool := c.isAlpha || c.isDigit || c == '-'

/-- JavaScript `String.prototype.trim`: drop leading and trailing whitespace. -/
def jsTrim (l : List Char) : List Char :=
  ((l.dropWhile isJsWs).reverse.dropWhile isJsWs).reverse

/-- JavaScript `String.prototype.split` with a single-character separator
(as in `email.split('@')`): every separator occurrence is a boundary. -/
def splitOnChar (sep : Char) : List Char → List (List Char)
  | [] => [[]]
  | c :: cs =>
    if c = sep then [] :: splitOnChar sep cs
    else
      match splitOnChar sep cs with
      | [] => [[c]]
      | t :: ts => (c :: t) :: ts

/-- JavaScript `String.prototype.split` with the regular expression
`/[,\s\n]+/`: maximal runs of separator characters are boundaries, a leading
or trailing run contributes an empty part, and the empty string splits to
one empty part. -/
def rawSplit : List Char → List (List Char)
  | [] => [[]]
  | [c] => if isSep c then [[], []] else [[c]]
  | c1 :: c2 :: cs =>
    if isSep c1 then
      if isSep c2 then rawSplit (c2 :: cs) else [] :: rawSplit (c2 :: cs)
    else
      match rawSplit (c2 :: cs) with
      | [] => [[c1]]
      | t :: ts => (c1 :: t) :: ts

/-- Maximal runs of non-separator characters, in order.  This follows the
spec's description of tokenization ("split on one-or-more consecutive
occurrences of comma, whitespace, or newline; discard resulting empty
tokens"); it is related below to the source's `split`-then-`filter`. -/
def tokens : List Char → List (List Char)
  | [] => []
  | [c] => if isSep c then [] else [[c]]
  | c1 :: c2 :: cs =>
    if isSep c1 then tokens (c2 :: cs)
    else if isSep c2 then [c1] :: tokens (c2 :: cs)
    else
      match tokens (c2 :: cs) with
      | [] => [[c1]]
      | t :: ts => (c1 :: t) :: ts

/-- Deduplication with first-occurrence order, as `[...new Set(xs)]`:
`seen` holds the values already emitted. -/
def firstDedupAux {α : Type} [DecidableEq α] : List α → List α → List α
  | _, [] => []
  | seen, x :: xs =>
    if x ∈ seen then firstDedupAux seen xs
    else x :: firstDedupAux (x :: seen) xs

/-- JavaScript `Array.prototype.join("\n")` on a list of char-list strings. -/
def joinNL : List (List Char) → List Char
  | [] => []
  | [m] => m
  | m :: m2 :: ms => m ++ '\n' :: joinNL (m2 :: ms)

/-! ### The validator's strict email pattern

The source tests each token against
`^(([^<>()[\]\\.,;:\s@"]+(\.[^<>()[\]\\.,;:\s@"]+)*)|(".+"))@((\[[0-9]{1,3}\.[0-9]{1,3}\.[0-9]{1,3}\.[0-9]{1,3}])|(([a-zA-Z\-0-9]+\.)+[a-zA-Z]{2,}))$`.
Since the pattern is anchored at both ends, `test` returns true exactly when
the whole token is in the pattern's language, i.e. when it decomposes as
a local part, an `@`, and a domain. -/

/-- Language of the dot-atom local part
`[^<>()[\]\\.,;:\s@"]+(\.[^<>()[\]\\.,;:\s@"]+)*`: splitting on `.` yields
nonempty atoms of atom characters (atom characters exclude `.`). -/
def dotAtomLocal (l : List Char) : Bool :=
  (splitOnChar '.' l).all (fun p => !p.isEmpty && p.all isAtomChar)

/-- Language of the quoted local part `".+"`: an opening quote, at least one
character that is not a line terminator (`.` without the `s` flag), and a
closing quote. -/
def quotedLocal (l : List Char) : Bool :=
  match l with
  | [] => false
  | c :: rest =>
    c == '"' && rest.getLast? == some '"' && !rest.dropLast.isEmpty &&
    rest.dropLast.all (fun x => !(x == '\n' || x == '\r' || x == '\u2028' || x == '\u2029'))

/-- Language of the local-part alternation of the strict pattern. -/
def strictLocal (l : List Char) : Bool := dotAtomLocal l || quotedLocal l

/-- Language of the bracketed IPv4 literal
`\[[0-9]{1,3}\.[0-9]{1,3}\.[0-9]{1,3}\.[0-9]{1,3}]`. -/
def ipv4Domain (d : List Char) : Bool :=
  match d with
  | [] => false
  | c :: rest =>
    c == '[' && rest.getLast? == some ']' &&
    decide ((splitOnChar '.' rest.dropLast).length = 4) &&
    (splitOnChar '.' rest.dropLast).all
      (fun p => !p.isEmpty && decide (p.length ≤ 3) && p.all Char.isDigit)

/-- Language of the hostname alternative `([a-zA-Z\-0-9]+\.)+[a-zA-Z]{2,}`:
at least one dot, every label before the last dot nonempty over the label
class, and a final label of at least two letters. -/
def hostnameDomain (d : List Char) : Bool :=
  decide (2 ≤ (splitOnChar '.' d).length) &&
  (splitOnChar '.' d).dropLast.all (fun p => !p.isEmpty && p.all hostLabelChar) &&
  (match (splitOnChar '.' d).getLast? with
   | some t => decide (2 ≤ t.length) && t.all Char.isAlpha
   | none => false)

/-- Language of the domain alternation of the strict pattern. -/
def strictDomain (d : List Char) : Bool := ipv4Domain d || hostnameDomain d

/-- Helper scanning all decompositions `reverse pre ++ x ++ '@' :: y` of the
token: the anchored pattern matches iff some `@` splits the token into a
local part and a domain. -/
def emailRegexTestAux (pre : List Char) : List Char → Bool
  | [] => false
  | c :: cs =>
    (c == '@' && strictLocal pre.reverse && strictDomain cs) ||
    emailRegexTestAux (c :: pre) cs

/-- `emailRegex.test` of the validator: whole-token membership in the
anchored strict pattern. -/
def emailRegexTest (l : List Char) : Bool := emailRegexTestAux [] l

/-! ### The validator -/

/-- Result record of a validation run, mirroring the `ValidationResult`
shape `{valid, invalid, risky, duplicates, total}` of the source. -/
structure ValidationResult where
  valid : List (List Char)
  invalid : List (List Char)
  risky : List (List Char)
  duplicates : Nat
  total : Nat
deriving DecidableEq

/-- Membership test of a JS `Set` of strings applied to an optional value:
`set.has(undefined)` is `false` for a set of strings. -/
def optMemL (s : List (List Char)) : Option (List Char) → Bool
  | none => false
  | some x => decide (x ∈ s)

/-- The risk test of the source:
`disposableDomains.has(email.split('@')[1]) || roleBasedEmails.has(email.split('@')[0])`. -/
def riskyTest (disp role : List (List Char)) (e : List Char) : Bool :=
  optMemL disp ((splitOnChar '@' e).get? 1) || optMemL role ((splitOnChar '@' e).get? 0)

/-- The classification loop of `validateEmails`: each unique token is
appended to `invalid` when it fails the strict pattern, else to `risky`
when the risk test fires, else to `valid`; first-seen order is kept. -/
def buildLists (disp role : List (List Char)) : List (List Char) →
    List (List Char) × List (List Char) × List (List Char)
  | [] => ([], [], [])
  | e :: es =>
    if emailRegexTest e = false then
      ((buildLists disp role es).1, e :: (buildLists disp role es).2.1,
        (buildLists disp role es).2.2)
    else if riskyTest disp role e then
      ((buildLists disp role es).1, (buildLists disp role es).2.1,
        e :: (buildLists disp role es).2.2)
    else
      (e :: (buildLists disp role es).1, (buildLists disp role es).2.1,
        (buildLists disp role es).2.2)

/-- The raw token list of the validator:
`inputText.split(/[,\s\n]+/).filter(e => e.trim() !== '')`. -/
def emailTokens (text : List Char) : List (List Char) :=
  (rawSplit text).filter (fun e => !(jsTrim e).isEmpty)

/-- The unique token list of the validator:
`[...new Set(emails.map(e => e.trim().toLowerCase()))]`. -/
def uniqueTokens (text : List Char) : List (List Char) :=
  firstDedupAux [] ((emailTokens text).map (fun e => (jsTrim e).map jsLower))

/-- Error message raised by the validator's empty-input guard. -/
def inputRequiredMsg : String := "Please provide emails to validate."

/-- The `validateEmails` operation of the source: blank input raises the
input-required condition; otherwise the input is tokenized, deduplicated
case-insensitively, classified, and the counts are attached. -/
def validateEmails (disp role : List (List Char)) (text : List Char) :
    Except String ValidationResult :=
  if (jsTrim text).isEmpty then Except.error inputRequiredMsg
  else
    Except.ok
      { valid := (buildLists disp role (uniqueTokens text)).1
        invalid := (buildLists disp role (uniqueTokens text)).2.1
        risky := (buildLists disp role (uniqueTokens text)).2.2
        duplicates := (emailTokens text).length - (uniqueTokens text).length
        total := (emailTokens text).length }

/-- Modelled from the spec: the module `data/disposable-domains` that
populates `disposableDomains` is not among the sources; the spec (§3,
testable property 5) names `"mailinator.com"` as a member, so the set is
modelled as containing exactly that domain. -/
def disposableDomains : List (List Char) := [String.toList "mailinator.com"]

/-- Modelled from the spec: the module `data/disposable-domains` that
populates `roleBasedEmails` is not among the sources; the spec (§3,
testable property 6) names `"admin"`, `"noreply"`, `"support"` as members,
so the set is modelled as containing exactly those local parts. -/
def roleBasedEmails : List (List Char) :=
  [String.toList "admin", String.toList "noreply", String.toList "support"]

/-- Following the spec's words: the domain obtained by splitting a token at
its last (or only) `@`. -/
def lastAtDomain (e : List Char) : List Char := (splitOnChar '@' e).getLastD []

/-! ### The extractor -/

/-- After the `@` of a candidate, the pattern `[a-zA-Z0-9._-]+\.[a-zA-Z0-9._-]+`
matches (within the maximal run of word characters) iff the run contains a
dot that is neither its first nor its last character. -/
def hasInnerDot (r : List Char) : Bool :=
  match r with
  | [] => false
  | _ :: rest => decide ('.' ∈ rest.dropLast)

/-- Attempt of the extractor's pattern
`[a-zA-Z0-9._-]+@[a-zA-Z0-9._-]+\.[a-zA-Z0-9._-]+` at the start of `s`:
the first part must be the (nonempty) leading run of word characters, the
next character must be `@`, and the following run must contain an inner
dot; a successful greedy match consumes that whole run.  Returns the match
and the rest of the input. -/
def tryMatchAt (s : List Char) : Option (List Char × List Char) :=
  match s.dropWhile isW with
  | [] => none
  | c :: rest =>
    if c = '@' then
      if (s.takeWhile isW).isEmpty then none
      else if hasInnerDot (rest.takeWhile isW) then
        some (s.takeWhile isW ++ '@' :: rest.takeWhile isW, rest.dropWhile isW)
      else none
    else none

/-- Fuelled global scan: at each position try the pattern; on success emit
the match and continue after it, otherwise advance one character.  The fuel
only serves termination; `s.length` is always enough. -/
def scanAux : Nat → List Char → List (List Char)
  | 0, _ => []
  | _ + 1, [] => []
  | f + 1, c :: cs =>
    match tryMatchAt (c :: cs) with
    | some p => p.1 :: scanAux f p.2
    | none => scanAux f cs

/-- JavaScript `text.match(emailRegex)` with the global flag: the list of
non-overlapping leftmost matches (`null` is modelled by the empty list). -/
def scanMatches (s : List Char) : List (List Char) := scanAux s.length s

/-- Lowercasing, set-based deduplication and default sort of the matches:
`[...new Set(foundEmails.map(e => e.toLowerCase()))].sort()`. -/
def extractCore (text : List Char) : List String :=
  List.insertionSort (fun a b : String => a ≤ b)
    (firstDedupAux [] ((scanMatches text).map (fun m => String.mk (m.map jsLower))))

/-- The `handleExtract` operation of the source: blank input yields the
empty list without error, otherwise the global match is lowercased,
deduplicated and sorted. -/
def extractEmails (text : List Char) : List String :=
  if (jsTrim text).isEmpty then [] else extractCore text

/-- ASCII lowercasing of a whole string. -/
def strLower (s : String) : String := String.mk (s.toList.map jsLower)

/-- Shape of every string the extractor's pattern can match: a nonempty run
of word characters, an `@`, and a run of word characters containing a dot
that is neither first nor last. -/
def PureMatch (m : List Char) : Prop :=
  ∃ a r, m = a ++ '@' :: r ∧ a ≠ [] ∧ a.all isW = true ∧ r.all isW = true ∧
    hasInnerDot r = true

/-! ### Basic lemmas about characters and list helpers -/

/-- A word character of the extractor's class is never JavaScript whitespace. -/
theorem isW_not_ws (c : Char) (h : isW c = true) : isJsWs c = false := by
  simp only [isW, Bool.or_eq_true, Bool.and_eq_true, decide_eq_true_eq,
    beq_iff_eq] at h
  simp only [isJsWs, Bool.or_eq_false_iff, Bool.and_eq_false_iff,
    beq_eq_false_iff_ne, ne_eq, decide_eq_false_iff_not, not_le]
  omega

/-- The ASCII lowering map either fixes a character or returns the second
component of one of the 26 letter pairs. -/
theorem jsLower_out (c : Char) :
    jsLower c = c ∨ ∃ p ∈ lowerPairs, jsLower c = p.2 := by
  unfold jsLower
  rcases hf : lowerPairs.find? (fun p => p.1 == c) with _ | p
  · exact Or.inl (by rw [hf]; rfl)
  · exact Or.inr ⟨p, List.mem_of_find?_eq_some hf, by rw [hf]; rfl⟩

/-- Lowercase letters are fixed by the ASCII lowering map. -/
theorem jsLower_fixed_of_lower (c : Char) (hp : ∃ p ∈ lowerPairs, c = p.2) :
    jsLower c = c := by
  obtain ⟨p, hp, hc⟩ := hp
  have hall : ∀ q ∈ lowerPairs, jsLower q.2 = q.2 := by decide
  rw [hc]
  exact hall p hp

/-- ASCII lowering is idempotent. -/
theorem jsLower_idem (c : Char) : jsLower (jsLower c) = jsLower c := by
  rcases jsLower_out c with h | ⟨p, hp, h⟩
  · rw [h]
    exact h
  · rw [h]
    exact jsLower_fixed_of_lower _ ⟨p, hp, rfl⟩

/-- ASCII lowering maps no character other than the dot to the dot. -/
theorem jsLower_eq_dot_iff (c : Char) : jsLower c = '.' ↔ c = '.' := by
  constructor
  · intro h
    rcases jsLower_out c with h' | ⟨p, hp, h'⟩
    · rw [← h', h]
    · rw [h] at h'
      have : ∀ p ∈ lowerPairs, ¬('.' = p.2) := by decide
      exact absurd h' (this p hp)
  · intro h
    subst h
    rfl

/-- ASCII lowering preserves the extractor's word-character class. -/
theorem isW_jsLower (c : Char) (h : isW c = true) : isW (jsLower c) = true := by
  rcases jsLower_out c with h' | ⟨p, hp, h'⟩
  · rw [h']
    exact h
  · rw [h']
    have : ∀ p ∈ lowerPairs, isW p.2 = true := by decide
    exact this p hp

/-- The trim of a list is empty exactly when all its characters are
whitespace. -/
theorem jsTrim_eq_nil_iff (l : List Char) :
    jsTrim l = [] ↔ ∀ c ∈ l, isJsWs c = true := by
  unfold jsTrim
  rw [List.reverse_eq_nil_iff, List.dropWhile_eq_nil_iff]
  constructor
  · intro h c hc
    have hsplit := List.takeWhile_append_dropWhile (p := isJsWs) (l := l)
    rw [← hsplit] at hc
    rcases List.mem_append.mp hc with hc | hc
    · exact List.mem_takeWhile_imp hc
    · exact h c (List.mem_reverse.mpr hc)
  · intro h c hc
    have : c ∈ List.dropWhile isJsWs l := List.mem_reverse.mp hc
    exact h c (List.dropWhile_sublist (p := isJsWs) (l := l) |>.mem this)

/-- Trimming a list with no whitespace characters is the identity. -/
theorem jsTrim_eq_self (l : List Char) (h : ∀ c ∈ l, isJsWs c = false) :
    jsTrim l = l := by
  unfold jsTrim
  have h1 : List.dropWhile isJsWs l = l := by
    cases l with
    | nil => rfl
    | cons c cs =>
      exact List.dropWhile_cons_of_neg (by simp [h c (List.mem_cons_self c cs)])
  rw [h1]
  have h2 : List.dropWhile isJsWs l.reverse = l.reverse := by
    cases hr : l.reverse with
    | nil => rfl
    | cons c cs =>
      have : c ∈ l := by
        rw [← List.mem_reverse, hr]
        exact List.mem_cons_self c cs
      exact List.dropWhile_cons_of_neg (by simp [h c this])
  rw [h2, List.reverse_reverse]

/-- Membership in a first-occurrence deduplication. -/
theorem mem_firstDedupAux {α : Type} [DecidableEq α] (seen l : List α) (a : α) :
    a ∈ firstDedupAux seen l ↔ a ∈ l ∧ a ∉ seen := by
  induction l generalizing seen with
  | nil => simp [firstDedupAux]
  | cons x xs ih =>
    by_cases hx : x ∈ seen
    · rw [firstDedupAux, if_pos hx, ih]
      simp only [List.mem_cons]
      constructor
      · rintro ⟨h1, h2⟩
        exact ⟨Or.inr h1, h2⟩
      · rintro ⟨h1 | h1, h2⟩
        · exact absurd (h1 ▸ hx) h2
        · exact ⟨h1, h2⟩
    · rw [firstDedupAux, if_neg hx]
      simp only [List.mem_cons, ih, not_or]
      constructor
      · rintro (h1 | ⟨h1, h2a, h2b⟩)
        · exact ⟨Or.inl h1, h1 ▸ hx⟩
        · exact ⟨Or.inr h1, h2b⟩
      · rintro ⟨h1 | h1, h2⟩
        · exact Or.inl h1
        · by_cases hax : a = x
          · exact Or.inl hax
          · exact Or.inr ⟨h1, hax, h2⟩

/-- First-occurrence deduplication yields a list without duplicates. -/
theorem nodup_firstDedupAux {α : Type} [DecidableEq α] (seen l : List α) :
    (firstDedupAux seen l).Nodup := by
  induction l generalizing seen with
  | nil => simp [firstDedupAux]
  | cons x xs ih =>
    by_cases hx : x ∈ seen
    · simpa [firstDedupAux, if_pos hx] using ih seen
    · simp only [firstDedupAux, if_neg hx, List.nodup_cons]
      refine ⟨fun hmem => ?_, ih (x :: seen)⟩
      exact ((mem_firstDedupAux _ _ _).mp hmem).2 (List.mem_cons_self x seen)

/-- First-occurrence deduplication never lengthens a list. -/
theorem length_firstDedupAux_le {α : Type} [DecidableEq α] (seen l : List α) :
    (firstDedupAux seen l).length ≤ l.length := by
  induction l generalizing seen with
  | nil => simp [firstDedupAux]
  | cons x xs ih =>
    by_cases hx : x ∈ seen
    · simp only [firstDedupAux, if_pos hx, List.length_cons]
      exact Nat.le_succ_of_le (ih seen)
    · simpa [firstDedupAux, if_neg hx] using ih (x :: seen)

/-- First-occurrence deduplication fixes a duplicate-free list disjoint from
the already-seen values. -/
theorem firstDedupAux_eq_self {α : Type} [DecidableEq α] (seen l : List α)
    (hd : l.Nodup) (hs : ∀ a ∈ l, a ∉ seen) : firstDedupAux seen l = l := by
  induction l generalizing seen with
  | nil => rfl
  | cons x xs ih =>
    have hx : x ∉ seen := hs x (List.mem_cons_self x xs)
    rw [firstDedupAux, if_neg hx]
    congr 1
    refine ih (x :: seen) (List.Nodup.of_cons hd) (fun a ha => ?_)
    simp only [List.mem_cons, not_or]
    refine ⟨fun hax => ?_, hs a (List.mem_cons_of_mem _ ha)⟩
    exact (List.nodup_cons.mp hd).1 (hax ▸ ha)

/-- A single-character split never returns the empty list of parts. -/
theorem splitOnChar_ne_nil (sep : Char) (l : List Char) :
    splitOnChar sep l ≠ [] := by
  induction l with
  | nil => simp [splitOnChar]
  | cons c cs ih =>
    simp only [splitOnChar]
    split
    · simp
    · split
      · simp
      · simp

/-- Every character of a split input is the separator or sits in some part. -/
theorem mem_splitOnChar (sep : Char) (l : List Char) (c : Char) (h : c ∈ l) :
    c = sep ∨ ∃ p ∈ splitOnChar sep l, c ∈ p := by
  induction l with
  | nil => cases h
  | cons x xs ih =>
    by_cases hx : x = sep
    · rcases List.mem_cons.mp h with hc | hc
      · exact Or.inl (hc.trans hx)
      · rcases ih hc with hc' | ⟨p, hp, hcp⟩
        · exact Or.inl hc'
        · refine Or.inr ⟨p, ?_, hcp⟩
          simp [splitOnChar, hx, List.mem_cons, hp]
    · rcases hsp : splitOnChar sep xs with _ | ⟨t, ts⟩
      · exact absurd hsp (splitOnChar_ne_nil sep xs)
      · have hgoal : splitOnChar sep (x :: xs) = (x :: t) :: ts := by
          simp [splitOnChar, hx, hsp]
        rcases List.mem_cons.mp h with hc | hc
        · exact Or.inr ⟨x :: t, by simp [hgoal], by simp [hc]⟩
        · rcases ih hc with hc' | ⟨p, hp, hcp⟩
          · exact Or.inl hc'
          · rw [hsp] at hp
            rcases List.mem_cons.mp hp with hp' | hp'
            · exact Or.inr ⟨x :: t, by simp [hgoal], by simp [hp' ▸ hcp]⟩
            · exact Or.inr ⟨p, by simp [hgoal, hp'], hcp⟩

/-- A list containing the separator splits into at least two parts. -/
theorem splitOnChar_length2 (sep : Char) (l : List Char) (h : sep ∈ l) :
    2 ≤ (splitOnChar sep l).length := by
  induction l with
  | nil => cases h
  | cons x xs ih =>
    by_cases hx : x = sep
    · have := splitOnChar_ne_nil sep xs
      have hpos : 0 < (splitOnChar sep xs).length := List.length_pos.mpr this
      simp only [splitOnChar, if_pos hx, List.length_cons]
      omega
    · have hxs : sep ∈ xs := by
        rcases List.mem_cons.mp h with hc | hc
        · exact absurd hc.symm hx
        · exact hc
      rcases hsp : splitOnChar sep xs with _ | ⟨t, ts⟩
      · exact absurd hsp (splitOnChar_ne_nil sep xs)
      · have h2 := ih hxs
        rw [hsp] at h2
        simp only [splitOnChar, if_neg hx, hsp, List.length_cons] at h2 ⊢
        omega

/-! ### Structure of the validator -/

/-- The classification loop is an ordered three-way partition by filters:
`invalid` collects the pattern failures, `risky` the flagged passes, and
`valid` the remaining passes, each in first-seen order. -/
theorem buildLists_eq (disp role : List (List Char)) (l : List (List Char)) :
    buildLists disp role l =
      (l.filter (fun e => emailRegexTest e && !riskyTest disp role e),
       l.filter (fun e => !emailRegexTest e),
       l.filter (fun e => emailRegexTest e && riskyTest disp role e)) := by
  induction l with
  | nil => rfl
  | cons e es ih =>
    cases h1 : emailRegexTest e with
    | false => simp [buildLists, h1, ih, List.filter_cons]
    | true =>
      cases h2 : riskyTest disp role e with
      | false => simp [buildLists, h1, h2, ih, List.filter_cons]
      | true => simp [buildLists, h1, h2, ih, List.filter_cons]

/-- The three classification filters partition the unique token list, so
their lengths add up to its length. -/
theorem filter_three_length (disp role : List (List Char)) (l : List (List Char)) :
    (l.filter (fun e => emailRegexTest e && !riskyTest disp role e)).length +
      (l.filter (fun e => !emailRegexTest e)).length +
      (l.filter (fun e => emailRegexTest e && riskyTest disp role e)).length =
      l.length := by
  induction l with
  | nil => rfl
  | cons e es ih =>
    cases h1 : emailRegexTest e <;> cases h2 : riskyTest disp role e <;>
      simp [List.filter_cons, h1, h2] <;> omega

/-- Unfolding of a successful validation run: the three lists are the three
filters of the unique token list and the counts come from the raw and
unique token lists. -/
theorem validateEmails_ok_elim (disp role : List (List Char)) (text : List Char)
    (res : ValidationResult) (h : validateEmails disp role text = Except.ok res) :
    res.valid = (uniqueTokens text).filter
        (fun e => emailRegexTest e && !riskyTest disp role e) ∧
      res.invalid = (uniqueTokens text).filter (fun e => !emailRegexTest e) ∧
      res.risky = (uniqueTokens text).filter
        (fun e => emailRegexTest e && riskyTest disp role e) ∧
      res.duplicates = (emailTokens text).length - (uniqueTokens text).length ∧
      res.total = (emailTokens text).length := by
  unfold validateEmails at h
  split at h
  · cases h
  · rw [Except.ok.injEq] at h
    subst h
    rw [buildLists_eq]
    exact ⟨rfl, rfl, rfl, rfl, rfl⟩

/-- The unique token list never has duplicate entries. -/
theorem uniqueTokens_nodup (text : List Char) : (uniqueTokens text).Nodup :=
  nodup_firstDedupAux [] _

/-- The unique token list is never longer than the raw token list. -/
theorem uniqueTokens_length_le (text : List Char) :
    (uniqueTokens text).length ≤ (emailTokens text).length := by
  have := length_firstDedupAux_le ([] : List (List Char))
    ((emailTokens text).map (fun e => (jsTrim e).map jsLower))
  simpa [uniqueTokens] using this

/-! ### Decomposing the strict pattern -/

/-- The scanning helper accepts exactly the decompositions of the remaining
input at some `@` into a local part (together with the already-consumed
reversed prefix) and a domain. -/
theorem emailRegexTestAux_iff (pre rest : List Char) :
    emailRegexTestAux pre rest = true ↔
      ∃ x y, rest = x ++ '@' :: y ∧ strictLocal (pre.reverse ++ x) = true ∧
        strictDomain y = true := by
  induction rest generalizing pre with
  | nil =>
    simp only [emailRegexTestAux]
    constructor
    · intro h
      exact absurd h (by simp)
    · rintro ⟨x, y, hxy, -, -⟩
      exact absurd hxy (by cases x <;> simp)
  | cons c cs ih =>
    simp only [emailRegexTestAux, Bool.or_eq_true, Bool.and_eq_true, beq_iff_eq]
    constructor
    · rintro (⟨⟨hc, hl⟩, hd⟩ | h)
      · exact ⟨[], cs, by rw [hc]; rfl, by simpa using hl, hd⟩
      · obtain ⟨x, y, hxy, hl, hd⟩ := (ih (c :: pre)).mp h
        refine ⟨c :: x, y, by rw [List.cons_append, hxy], ?_, hd⟩
        rw [List.reverse_cons, List.append_assoc] at hl
        simpa using hl
    · rintro ⟨x, y, hxy, hl, hd⟩
      cases x with
      | nil =>
        simp only [List.nil_append, List.cons.injEq] at hxy
        obtain ⟨hc, hcs⟩ := hxy
        left
        exact ⟨⟨hc, by simpa using hl⟩, hcs ▸ hd⟩
      | cons x1 xs =>
        simp only [List.cons_append, List.cons.injEq] at hxy
        obtain ⟨hc, hcs⟩ := hxy
        right
        apply (ih (c :: pre)).mpr
        refine ⟨xs, y, hcs, ?_, hd⟩
        rw [List.reverse_cons, List.append_assoc]
        simpa [hc] using hl

/-- The strict test succeeds exactly when the token splits at some `@` into
a local part and a domain of the pattern's languages. -/
theorem emailRegexTest_iff (e : List Char) :
    emailRegexTest e = true ↔
      ∃ x y, e = x ++ '@' :: y ∧ strictLocal x = true ∧ strictDomain y = true := by
  have := emailRegexTestAux_iff [] e
  simpa [emailRegexTest] using this

/-- A dot-atom local part contains no `@`. -/
theorem dotAtomLocal_no_at (l : List Char) (h : dotAtomLocal l = true) :
    '@' ∉ l := by
  intro hc
  rcases mem_splitOnChar '.' l '@' hc with h1 | ⟨p, hp, hcp⟩
  · exact absurd h1 (by decide)
  · rw [dotAtomLocal, List.all_eq_true] at h
    have hq := h p hp
    simp only [Bool.and_eq_true, List.all_eq_true] at hq
    exact absurd (hq.2 _ hcp) (by decide)

/-- A quoted local part starts with a quote character. -/
theorem quotedLocal_quote_mem (l : List Char) (h : quotedLocal l = true) :
    '"' ∈ l := by
  cases l with
  | nil => simp [quotedLocal] at h
  | cons c rest =>
    simp only [quotedLocal, Bool.and_eq_true, beq_iff_eq] at h
    obtain ⟨⟨⟨hc, -⟩, -⟩, -⟩ := h
    rw [hc]
    exact List.mem_cons_self _ _

/-- A hostname domain contains no `@`. -/
theorem hostnameDomain_no_at (d : List Char) (h : hostnameDomain d = true) :
    '@' ∉ d := by
  intro hc
  simp only [hostnameDomain, Bool.and_eq_true, decide_eq_true_eq] at h
  obtain ⟨⟨-, hlab⟩, hlast⟩ := h
  have hne : splitOnChar '.' d ≠ [] := splitOnChar_ne_nil '.' d
  rcases mem_splitOnChar '.' d '@' hc with h1 | ⟨p, hp, hcp⟩
  · exact absurd h1 (by decide)
  · rw [← List.dropLast_append_getLast hne] at hp
    rcases List.mem_append.mp hp with hp' | hp'
    · rw [List.all_eq_true] at hlab
      have hq := hlab p hp'
      simp only [Bool.and_eq_true, List.all_eq_true] at hq
      exact absurd (hq.2 _ hcp) (by decide)
    · have hpl : p = (splitOnChar '.' d).getLast hne := by simpa using hp'
      rw [List.getLast?_eq_getLast _ hne] at hlast
      simp only [Bool.and_eq_true, decide_eq_true_eq, List.all_eq_true] at hlast
      exact absurd (hlast.2 _ (hpl ▸ hcp)) (by decide)

/-- A bracketed IPv4 domain contains no `@`. -/
theorem ipv4Domain_no_at (d : List Char) (h : ipv4Domain d = true) :
    '@' ∉ d := by
  cases d with
  | nil => simp [ipv4Domain] at h
  | cons c rest =>
    intro hc
    simp only [ipv4Domain, Bool.and_eq_true, beq_iff_eq, decide_eq_true_eq] at h
    obtain ⟨⟨⟨hc1, hlast⟩, -⟩, hall⟩ := h
    have hne : rest ≠ [] := by
      intro h0
      rw [h0] at hlast
      cases hlast
    have hlastv : rest.getLast hne = ']' := by
      rw [List.getLast?_eq_getLast _ hne] at hlast
      exact Option.some_inj.mp hlast
    rcases List.mem_cons.mp hc with hceq | hcr
    · rw [hc1] at hceq
      exact absurd hceq (by decide)
    · rw [← List.dropLast_append_getLast hne] at hcr
      rcases List.mem_append.mp hcr with hcd | hcd
      · rcases mem_splitOnChar '.' rest.dropLast '@' hcd with h1 | ⟨p, hp, hcp⟩
        · exact absurd h1 (by decide)
        · rw [List.all_eq_true] at hall
          have hq := hall p hp
          simp only [Bool.and_eq_true, List.all_eq_true] at hq
          exact absurd (hq.2 _ hcp) (by decide)
      · have : '@' = rest.getLast hne := by simpa using hcd
        rw [hlastv] at this
        exact absurd this (by decide)

/-- A token with at least two `@` characters and no quote character fails
the strict pattern: the quoted-local alternative is the only way an extra
`@` can be absorbed. -/
theorem multi_at_fails (e : List Char) (h2 : 2 ≤ List.count '@' e)
    (hq : '"' ∉ e) : emailRegexTest e = false := by
  by_contra hne
  have ht : emailRegexTest e = true := by
    revert hne
    cases emailRegexTest e <;> simp
  obtain ⟨x, y, hxy, hl, hd⟩ := (emailRegexTest_iff e).mp ht
  have hdy : '@' ∉ y := by
    simp only [strictDomain, Bool.or_eq_true] at hd
    rcases hd with hd | hd
    · exact ipv4Domain_no_at _ hd
    · exact hostnameDomain_no_at _ hd
  have hlx : '@' ∉ x := by
    simp only [strictLocal, Bool.or_eq_true] at hl
    rcases hl with hl | hl
    · exact dotAtomLocal_no_at _ hl
    · refine absurd ?_ hq
      rw [hxy]
      exact List.mem_append_left _ (quotedLocal_quote_mem _ hl)
  have hx0 : List.count '@' x = 0 := List.count_eq_zero.mpr hlx
  have hy0 : List.count '@' y = 0 := List.count_eq_zero.mpr hdy
  rw [hxy, List.count_append, List.count_cons, hx0, hy0] at h2
  simp at h2

/-! ### Tokenization: relating the source's split to maximal runs -/

/-- A regular-expression split never returns the empty list of parts. -/
theorem rawSplit_ne_nil (l : List Char) : rawSplit l ≠ [] := by
  induction l using rawSplit.induct <;> simp_all [rawSplit]

/-- A split starting at a separator begins with an empty part. -/
theorem rawSplit_sep_head (cs : List Char) :
    ∀ c, isSep c = true → ∃ ts, rawSplit (c :: cs) = [] :: ts := by
  induction cs with
  | nil =>
    intro c h
    exact ⟨[[]], by simp [rawSplit, h]⟩
  | cons c2 cs2 ih =>
    intro c h
    by_cases h2 : isSep c2
    · obtain ⟨ts, hts⟩ := ih c2 h2
      exact ⟨ts, by simp [rawSplit, h, h2, hts]⟩
    · exact ⟨rawSplit (c2 :: cs2), by simp [rawSplit, h, h2]⟩

/-- A split starting at a non-separator begins with a part starting with
that character. -/
theorem rawSplit_nonsep_head (cs : List Char) (c : Char) (h : isSep c = false) :
    ∃ t ts, rawSplit (c :: cs) = (c :: t) :: ts := by
  cases cs with
  | nil => exact ⟨[], [], by simp [rawSplit, h]⟩
  | cons c2 cs2 =>
    rcases hr : rawSplit (c2 :: cs2) with _ | ⟨t, ts⟩
    · exact absurd hr (rawSplit_ne_nil _)
    · exact ⟨t, ts, by simp [rawSplit, h, hr]⟩

/-- No part produced by the tokenizing split contains a separator
character. -/
theorem rawSplit_no_sep (l : List Char) :
    ∀ t ∈ rawSplit l, ∀ c ∈ t, isSep c = false := by
  induction l using rawSplit.induct with
  | case1 =>
    intro t ht
    simp only [rawSplit, List.mem_singleton] at ht
    simp [ht]
  | case2 c h =>
    intro t ht
    simp only [rawSplit, if_pos h] at ht
    have ht0 : t = [] := by
      rcases List.mem_cons.mp ht with h' | h'
      · exact h'
      · simpa using h'
    simp [ht0]
  | case3 c h =>
    intro t ht
    simp only [rawSplit, if_neg h] at ht
    simp only [List.mem_singleton] at ht
    intro c' hc'
    rw [ht] at hc'
    simp only [List.mem_singleton] at hc'
    rw [hc']
    exact Bool.eq_false_iff.mpr h
  | case4 c1 c2 cs h1 h2 ih =>
    intro t ht
    simp only [rawSplit, if_pos h1, if_pos h2] at ht
    exact ih t ht
  | case5 c1 c2 cs h1 h2 ih =>
    intro t ht
    simp only [rawSplit, if_pos h1, if_neg h2] at ht
    rcases List.mem_cons.mp ht with ht' | ht'
    · simp [ht']
    · exact ih t ht'
  | case6 c1 c2 cs h1 heq ih => exact absurd heq (rawSplit_ne_nil _)
  | case7 c1 c2 cs h1 t ts heq ih =>
    intro t' ht'
    simp only [rawSplit, if_neg h1, heq] at ht'
    rcases List.mem_cons.mp ht' with ht'' | ht''
    · intro c' hc'
      rw [ht''] at hc'
      rcases List.mem_cons.mp hc' with hc'' | hc''
      · rw [hc'']
        exact Bool.eq_false_iff.mpr h1
      · exact ih t (heq ▸ List.mem_cons_self t ts) c' hc''
    · exact ih t' (heq ▸ List.mem_cons_of_mem t ht'')


/-- Dropping the empty parts of the source's tokenizing split yields exactly
the maximal runs of non-separator characters. -/
theorem rawSplit_filter_eq_tokens (l : List Char) :
    (rawSplit l).filter (fun t => !t.isEmpty) = tokens l := by
  induction l using rawSplit.induct with
  | case1 => simp [rawSplit, tokens]
  | case2 c h => simp [rawSplit, tokens, h]
  | case3 c h => simp [rawSplit, tokens, h]
  | case4 c1 c2 cs h1 h2 ih => simp [rawSplit, tokens, h1, h2, ih]
  | case5 c1 c2 cs h1 h2 ih => simp [rawSplit, tokens, h1, h2, ih]
  | case6 c1 c2 cs h1 heq ih => exact absurd heq (rawSplit_ne_nil _)
  | case7 c1 c2 cs h1 t ts heq ih =>
    have hstep : rawSplit (c1 :: c2 :: cs) = (c1 :: t) :: ts := by
      simp [rawSplit, h1, heq]
    by_cases h2 : isSep c2 = true
    · obtain ⟨ts2, hts2⟩ := rawSplit_sep_head cs c2 h2
      rw [heq] at hts2
      injection hts2 with ht0 hts0
      subst ht0
      rw [heq] at ih
      have ih2 : List.filter (fun x => !x.isEmpty) ts = tokens (c2 :: cs) := by
        simpa using ih
      rw [hstep]
      have htok : tokens (c1 :: c2 :: cs) = [c1] :: tokens (c2 :: cs) := by
        simp [tokens, h1, h2]
      rw [htok, ← ih2]
      simp [List.filter_cons]
    · obtain ⟨t2, ts2, hts2⟩ :=
        rawSplit_nonsep_head cs c2 (Bool.eq_false_iff.mpr h2)
      rw [heq] at hts2
      injection hts2 with ht0 hts0
      subst ht0
      rw [heq] at ih
      have ih2 : (c2 :: t2) :: List.filter (fun x => !x.isEmpty) ts =
          tokens (c2 :: cs) := by
        simpa using ih
      rw [hstep]
      have htok : tokens (c1 :: c2 :: cs) =
          (c1 :: c2 :: t2) :: List.filter (fun x => !x.isEmpty) ts := by
        simp only [tokens, if_neg h1, if_neg h2, ← ih2]
      rw [htok]
      simp [List.filter_cons]

/-- The raw token list of the validator equals the list of maximal runs of
non-separator characters of the input. -/
theorem emailTokens_eq_tokens (text : List Char) : emailTokens text = tokens text := by
  unfold emailTokens
  have hcongr : ∀ t ∈ rawSplit text, (!(jsTrim t).isEmpty) = (!t.isEmpty) := by
    intro t ht
    have htt : jsTrim t = t := by
      refine jsTrim_eq_self t (fun c hc => ?_)
      have hs := rawSplit_no_sep text t ht c hc
      simp only [isSep, Bool.or_eq_false_iff] at hs
      exact hs.2
    rw [htt]
  rw [List.filter_congr hcongr]
  exact rawSplit_filter_eq_tokens text

/-! ### The extractor's scan -/

/-- Taking while a predicate holds skips over a prefix on which it holds
everywhere. -/
theorem takeWhile_all_append (p : Char → Bool) (a z : List Char)
    (h : a.all p = true) : (a ++ z).takeWhile p = a ++ z.takeWhile p := by
  induction a with
  | nil => simp
  | cons x xs ih =>
    simp only [List.all_cons, Bool.and_eq_true] at h
    simp [List.takeWhile_cons, h.1, ih h.2]

/-- Dropping while a predicate holds skips over a prefix on which it holds
everywhere. -/
theorem dropWhile_all_append (p : Char → Bool) (a z : List Char)
    (h : a.all p = true) : (a ++ z).dropWhile p = z.dropWhile p := by
  induction a with
  | nil => simp
  | cons x xs ih =>
    simp only [List.all_cons, Bool.and_eq_true] at h
    simp [List.dropWhile_cons, h.1, ih h.2]

/-- A successful pattern attempt consumes at least one character and its
match has the pure-match shape. -/
theorem tryMatchAt_some (s m rest : List Char)
    (h : tryMatchAt s = some (m, rest)) :
    rest.length < s.length ∧ PureMatch m := by
  unfold tryMatchAt at h
  rcases hd : s.dropWhile isW with _ | ⟨c, rest0⟩
  · rw [hd] at h
    cases h
  · rw [hd] at h
    dsimp only at h
    by_cases hc : c = '@'
    · rw [if_pos hc] at h
      by_cases hemp : (s.takeWhile isW).isEmpty = true
      · rw [if_pos hemp] at h
        cases h
      · rw [if_neg hemp] at h
        by_cases hdot : hasInnerDot (rest0.takeWhile isW) = true
        · rw [if_pos hdot] at h
          rw [Option.some.injEq, Prod.mk.injEq] at h
          obtain ⟨hm, hrest⟩ := h
          constructor
          · have h1 : rest.length ≤ rest0.length := by
              rw [← hrest]
              exact (List.dropWhile_sublist _).length_le
            have h2 : (c :: rest0).length ≤ s.length := by
              rw [← hd]
              exact (List.dropWhile_sublist _).length_le
            simp only [List.length_cons] at h2
            omega
          · refine ⟨s.takeWhile isW, rest0.takeWhile isW, hm.symm, ?_, ?_, ?_,
              hdot⟩
            · intro h0
              rw [h0] at hemp
              exact hemp rfl
            · rw [List.all_eq_true]
              exact fun x hx => List.mem_takeWhile_imp hx
            · rw [List.all_eq_true]
              exact fun x hx => List.mem_takeWhile_imp hx
        · rw [if_neg hdot] at h
          cases h
    · rw [if_neg hc] at h
      cases h

/-- The fuelled scan of the empty input is empty. -/
theorem scanAux_nil (f : Nat) : scanAux f [] = [] := by
  cases f <;> rfl

/-- The fuelled scan does not depend on the fuel once it covers the input
length. -/
theorem scanAux_congr : ∀ f f' (s : List Char), s.length ≤ f →
    s.length ≤ f' → scanAux f s = scanAux f' s := by
  intro f
  induction f with
  | zero =>
    intro f' s h h'
    have hs : s = [] := List.eq_nil_of_length_eq_zero (Nat.le_zero.mp h)
    rw [hs, scanAux_nil, scanAux_nil]
  | succ g ihg =>
    intro f' s h h'
    cases s with
    | nil => rw [scanAux_nil, scanAux_nil]
    | cons c cs =>
      cases f' with
      | zero => simp at h'
      | succ g' =>
        rcases hm : tryMatchAt (c :: cs) with _ | ⟨m, rest⟩
        · simp only [scanAux, hm]
          have hlen : cs.length ≤ g := by
            simp only [List.length_cons] at h
            omega
          have hlen' : cs.length ≤ g' := by
            simp only [List.length_cons] at h'
            omega
          exact ihg g' cs hlen hlen'
        · simp only [scanAux, hm]
          have hlt := (tryMatchAt_some _ _ _ hm).1
          simp only [List.length_cons] at h h' hlt
          congr 1
          exact ihg g' rest (by omega) (by omega)

/-- Scanning after a successful attempt continues past the match. -/
theorem scan_cons_match (c : Char) (cs m rest : List Char)
    (h : tryMatchAt (c :: cs) = some (m, rest)) :
    scanMatches (c :: cs) = m :: scanMatches rest := by
  have hlt := (tryMatchAt_some _ _ _ h).1
  unfold scanMatches
  simp only [List.length_cons, scanAux, h]
  congr 1
  simp only [List.length_cons] at hlt
  exact scanAux_congr cs.length rest.length rest (by omega) (le_refl _)

/-- Scanning after a failed attempt advances one character. -/
theorem scan_cons_nomatch (c : Char) (cs : List Char)
    (h : tryMatchAt (c :: cs) = none) :
    scanMatches (c :: cs) = scanMatches cs := by
  unfold scanMatches
  simp only [List.length_cons, scanAux, h]

/-- The pattern attempt at the start of a pure match followed by a
non-word-character boundary succeeds and consumes exactly the match. -/
theorem tryMatchAt_pure (a r t : List Char) (ha : a ≠ [])
    (haW : a.all isW = true) (hrW : r.all isW = true)
    (hd : hasInnerDot r = true)
    (ht : ∀ c, t.head? = some c → isW c = false) :
    tryMatchAt (a ++ '@' :: (r ++ t)) = some (a ++ '@' :: r, t) := by
  have h1 : (a ++ '@' :: (r ++ t)).dropWhile isW = '@' :: (r ++ t) := by
    rw [dropWhile_all_append isW a _ haW]
    exact List.dropWhile_cons_of_neg (by decide)
  have h2 : (a ++ '@' :: (r ++ t)).takeWhile isW = a := by
    rw [takeWhile_all_append isW a _ haW, List.takeWhile_cons_of_neg (by decide)]
    simp
  have h3 : (r ++ t).takeWhile isW = r := by
    rw [takeWhile_all_append isW r t hrW]
    cases t with
    | nil => simp
    | cons c' t' =>
      rw [List.takeWhile_cons_of_neg (by simp [ht c' rfl])]
      simp
  have h4 : (r ++ t).dropWhile isW = t := by
    rw [dropWhile_all_append isW r t hrW]
    cases t with
    | nil => rfl
    | cons c' t' => exact List.dropWhile_cons_of_neg (by simp [ht c' rfl])
  have hae : a.isEmpty = false := by
    cases a with
    | nil => exact absurd rfl ha
    | cons x xs => rfl
  unfold tryMatchAt
  rw [h1]
  dsimp only
  rw [if_pos rfl, h2, hae, h3, h4, if_pos hd]
  simp

/-- Scanning a pure match followed by a non-word boundary yields the match
and continues on the remainder. -/
theorem scan_pure_start (m t : List Char) (hm : PureMatch m)
    (ht : ∀ c, t.head? = some c → isW c = false) :
    scanMatches (m ++ t) = m :: scanMatches t := by
  obtain ⟨a, r, hme, ha, haW, hrW, hd⟩ := hm
  subst hme
  cases a with
  | nil => exact absurd rfl ha
  | cons a1 as =>
    have hmatch2 : tryMatchAt (a1 :: (as ++ '@' :: (r ++ t))) =
        some ((a1 :: as) ++ '@' :: r, t) := by
      simpa [List.cons_append, List.append_assoc] using
        tryMatchAt_pure (a1 :: as) r t ha haW hrW hd ht
    have := scan_cons_match a1 (as ++ '@' :: (r ++ t)) _ _ hmatch2
    simpa [List.cons_append, List.append_assoc] using this

/-- A line-feed boundary is skipped by the scan. -/
theorem scan_newline (t : List Char) : scanMatches ('\n' :: t) = scanMatches t := by
  apply scan_cons_nomatch
  unfold tryMatchAt
  rw [List.dropWhile_cons_of_neg (by decide)]
  simp

/-- Scanning the newline-join of pure matches recovers exactly the list. -/
theorem scanMatches_joinNL (L : List (List Char))
    (h : ∀ m ∈ L, PureMatch m) : scanMatches (joinNL L) = L := by
  induction L with
  | nil => rfl
  | cons m L' ih =>
    cases L' with
    | nil =>
      have hp := scan_pure_start m [] (h m (List.mem_cons_self _ _))
        (fun c hc => by simp at hc)
      simpa [joinNL] using hp
    | cons m2 L'' =>
      rw [joinNL]
      rw [show m ++ '\n' :: joinNL (m2 :: L'') =
        m ++ ('\n' :: joinNL (m2 :: L'')) from rfl]
      rw [scan_pure_start m ('\n' :: joinNL (m2 :: L''))
        (h m (List.mem_cons_self _ _))
        (fun c hc => by
          simp only [List.head?_cons, Option.some.injEq] at hc
          rw [← hc]
          decide)]
      rw [scan_newline]
      rw [ih (fun m' hm' => h m' (List.mem_cons_of_mem _ hm'))]

/-- ASCII lowering preserves the pure-match shape. -/
theorem pureMatch_map_lower (m : List Char) (h : PureMatch m) :
    PureMatch (m.map jsLower) := by
  obtain ⟨a, r, hme, ha, haW, hrW, hd⟩ := h
  subst hme
  refine ⟨a.map jsLower, r.map jsLower, ?_, ?_, ?_, ?_, ?_⟩
  · simp [List.map_append, show jsLower '@' = '@' from rfl]
  · simp [ha]
  · rw [List.all_eq_true]
    intro x hx
    obtain ⟨y, hy, hyx⟩ := List.mem_map.mp hx
    rw [← hyx]
    exact isW_jsLower y (by rw [List.all_eq_true] at haW; exact haW y hy)
  · rw [List.all_eq_true]
    intro x hx
    obtain ⟨y, hy, hyx⟩ := List.mem_map.mp hx
    rw [← hyx]
    exact isW_jsLower y (by rw [List.all_eq_true] at hrW; exact hrW y hy)
  · cases r with
    | nil => cases hd
    | cons x rest =>
      simp only [hasInnerDot, decide_eq_true_eq] at hd
      rw [List.map_cons]
      simp only [hasInnerDot, decide_eq_true_eq]
      rw [← List.map_dropLast]
      exact List.mem_map.mpr ⟨'.', hd, rfl⟩

/-- Every string produced by the fuelled scan is a pure match. -/
theorem scanAux_pure : ∀ f (s : List Char), ∀ m ∈ scanAux f s, PureMatch m := by
  intro f
  induction f with
  | zero => intro s m hm; cases hm
  | succ g ih =>
    intro s m hm
    cases s with
    | nil => cases hm
    | cons c cs =>
      rcases hmatch : tryMatchAt (c :: cs) with _ | ⟨m', rest⟩
      · rw [scanAux, hmatch] at hm
        exact ih cs m hm
      · rw [scanAux, hmatch] at hm
        rcases List.mem_cons.mp hm with hm' | hm'
        · exact hm' ▸ (tryMatchAt_some _ _ _ hmatch).2
        · exact ih rest m hm'

/-- Every string produced by the extractor's global match is a pure match. -/
theorem scanMatches_pure (s : List Char) : ∀ m ∈ scanMatches s, PureMatch m :=
  scanAux_pure s.length s

/-! ### The extractor's output -/

/-- Round trip from a character list through `String`. -/
theorem toList_mk (l : List Char) : (String.mk l).toList = l := rfl

/-- Round trip from a `String` through its character list. -/
theorem mk_toList (s : String) : String.mk s.toList = s := by
  cases s
  rfl

/-- Every element of the extractor's core output is a lowered match of the
scan. -/
theorem extractCore_mem (text : List Char) (x : String)
    (hx : x ∈ extractCore text) :
    ∃ m ∈ scanMatches text, x = String.mk (m.map jsLower) := by
  unfold extractCore at hx
  have hperm := List.perm_insertionSort (fun a b : String => a ≤ b)
    (firstDedupAux [] ((scanMatches text).map fun m => String.mk (m.map jsLower)))
  have hx2 := hperm.mem_iff.mp hx
  rw [mem_firstDedupAux] at hx2
  obtain ⟨hx3, -⟩ := hx2
  obtain ⟨m, hm, hmx⟩ := List.mem_map.mp hx3
  exact ⟨m, hm, hmx.symm⟩

/-- The extractor's core output has no duplicate entries. -/
theorem extractCore_nodup (text : List Char) : (extractCore text).Nodup := by
  unfold extractCore
  exact (List.perm_insertionSort _ _).symm.nodup (nodup_firstDedupAux _ _)

/-- The extractor's core output is sorted. -/
theorem extractCore_sorted (text : List Char) :
    List.Sorted (fun a b : String => a ≤ b) (extractCore text) :=
  List.sorted_insertionSort _ _

/-- Every element of the extractor's core output is fixed by lowering. -/
theorem extractCore_lower (text : List Char) (x : String)
    (hx : x ∈ extractCore text) : x.toList.map jsLower = x.toList := by
  obtain ⟨m, hm, hmx⟩ := extractCore_mem text x hx
  subst hmx
  rw [toList_mk, List.map_map]
  apply List.map_congr_left
  intro c _
  simp only [Function.comp_apply]
  exact jsLower_idem c

/-- Every element of the extractor's output is a pure match as a character
list. -/
theorem extractEmails_mem_pure (text : List Char) (x : String)
    (hx : x ∈ extractEmails text) : PureMatch x.toList := by
  unfold extractEmails at hx
  split at hx
  · cases hx
  · obtain ⟨m, hm, hmx⟩ := extractCore_mem _ _ hx
    subst hmx
    rw [toList_mk]
    exact pureMatch_map_lower m (scanMatches_pure text m hm)

/-- The newline-join of a list starting with some string starts with that
string's first character. -/
theorem joinNL_cons_head (x : List Char) (rest : List (List Char)) (c : Char)
    (hx : x.head? = some c) : (joinNL (x :: rest)).head? = some c := by
  cases rest with
  | nil => simpa [joinNL] using hx
  | cons y L =>
    cases x with
    | nil => cases hx
    | cons x1 xs => simpa [joinNL] using hx

/-- A list whose first character is not whitespace does not trim to the
empty list. -/
theorem jsTrim_ne_nil_of_head (l : List Char) (c : Char)
    (hc : l.head? = some c) (hw : isJsWs c = false) :
    (jsTrim l).isEmpty = false := by
  rw [List.isEmpty_eq_false]
  intro h0
  rw [jsTrim_eq_nil_iff] at h0
  have hcl : c ∈ l := List.mem_of_mem_head? (by rw [hc]; rfl)
  have := h0 c hcl
  rw [hw] at this
  cases this

/-! ### The claims -/

/-- C1: for every non-blank input accepted by the validator, the lengths of
the `valid`, `invalid` and `risky` lists plus the duplicate count equal the
reported total. -/
theorem claim_C1_partition_totals (disp role : List (List Char))
    (text : List Char) (res : ValidationResult)
    (h : validateEmails disp role text = Except.ok res) :
    res.valid.length + res.invalid.length + res.risky.length +
      res.duplicates = res.total := by
  obtain ⟨hv, hi, hr, hd, ht⟩ := validateEmails_ok_elim disp role text res h
  rw [hv, hi, hr, hd, ht]
  have hsum := filter_three_length disp role (uniqueTokens text)
  have hle := uniqueTokens_length_le text
  omega

/-- Witness for C1 at the input `"a@b.com, a@b.com"`. -/
theorem claim_C1_partition_totals_witness :
    validateEmails disposableDomains roleBasedEmails
        (String.toList "a@b.com, a@b.com") =
      Except.ok (ValidationResult.mk [String.toList "a@b.com"] [] [] 1 2) ∧
    (ValidationResult.mk [String.toList "a@b.com"] [] [] 1 2).valid.length +
      (ValidationResult.mk [String.toList "a@b.com"] [] [] 1 2).invalid.length +
      (ValidationResult.mk [String.toList "a@b.com"] [] [] 1 2).risky.length +
      (ValidationResult.mk [String.toList "a@b.com"] [] [] 1 2).duplicates =
      (ValidationResult.mk [String.toList "a@b.com"] [] [] 1 2).total :=
  ⟨rfl, claim_C1_partition_totals disposableDomains roleBasedEmails
    (String.toList "a@b.com, a@b.com") _ rfl⟩

/-- C8: in every validation result the three lists are duplicate-free and
pairwise disjoint. -/
theorem claim_C8_mutual_exclusivity (disp role : List (List Char))
    (text : List Char) (res : ValidationResult)
    (h : validateEmails disp role text = Except.ok res) :
    res.valid.Nodup ∧ res.invalid.Nodup ∧ res.risky.Nodup ∧
      res.valid.Disjoint res.invalid ∧ res.valid.Disjoint res.risky ∧
      res.invalid.Disjoint res.risky := by
  obtain ⟨hv, hi, hr, -, -⟩ := validateEmails_ok_elim disp role text res h
  have hnd := uniqueTokens_nodup text
  refine ⟨hv ▸ hnd.filter _, hi ▸ hnd.filter _, hr ▸ hnd.filter _, ?_, ?_, ?_⟩
  · rw [hv, hi]
    intro a hav hai
    rw [List.mem_filter] at hav hai
    simp only [Bool.and_eq_true, Bool.not_eq_true'] at hav hai
    have hT := hav.2.1
    rw [hai.2] at hT
    cases hT
  · rw [hv, hr]
    intro a hav har
    rw [List.mem_filter] at hav har
    simp only [Bool.and_eq_true, Bool.not_eq_true'] at hav har
    have hT := har.2.2
    rw [hav.2.2] at hT
    cases hT
  · rw [hi, hr]
    intro a hai har
    rw [List.mem_filter] at hai har
    simp only [Bool.and_eq_true, Bool.not_eq_true'] at hai har
    have hT := har.2.1
    rw [hai.2] at hT
    cases hT

/-- Witness for C8 at the input `"a@b.com x@mailinator.com bad"`. -/
theorem claim_C8_mutual_exclusivity_witness :
    validateEmails disposableDomains roleBasedEmails
        (String.toList "a@b.com x@mailinator.com bad") =
      Except.ok (ValidationResult.mk [String.toList "a@b.com"]
        [String.toList "bad"] [String.toList "x@mailinator.com"] 0 3) ∧
    ((ValidationResult.mk [String.toList "a@b.com"] [String.toList "bad"]
        [String.toList "x@mailinator.com"] 0 3).valid.Nodup ∧
      (ValidationResult.mk [String.toList "a@b.com"] [String.toList "bad"]
        [String.toList "x@mailinator.com"] 0 3).invalid.Nodup ∧
      (ValidationResult.mk [String.toList "a@b.com"] [String.toList "bad"]
        [String.toList "x@mailinator.com"] 0 3).risky.Nodup ∧
      (ValidationResult.mk [String.toList "a@b.com"] [String.toList "bad"]
        [String.toList "x@mailinator.com"] 0 3).valid.Disjoint
        (ValidationResult.mk [String.toList "a@b.com"] [String.toList "bad"]
          [String.toList "x@mailinator.com"] 0 3).invalid ∧
      (ValidationResult.mk [String.toList "a@b.com"] [String.toList "bad"]
        [String.toList "x@mailinator.com"] 0 3).valid.Disjoint
        (ValidationResult.mk [String.toList "a@b.com"] [String.toList "bad"]
          [String.toList "x@mailinator.com"] 0 3).risky ∧
      (ValidationResult.mk [String.toList "a@b.com"] [String.toList "bad"]
        [String.toList "x@mailinator.com"] 0 3).invalid.Disjoint
        (ValidationResult.mk [String.toList "a@b.com"] [String.toList "bad"]
          [String.toList "x@mailinator.com"] 0 3).risky) :=
  ⟨rfl, claim_C8_mutual_exclusivity disposableDomains roleBasedEmails
    (String.toList "a@b.com x@mailinator.com bad") _ rfl⟩

/-- C5: validation of empty or whitespace-only text raises the
input-required condition and yields no result, while extraction of the
empty text returns the empty list without error. -/
theorem claim_C5_empty_input_guard :
    (∀ disp role (text : List Char), text.all isJsWs = true →
      validateEmails disp role text = Except.error inputRequiredMsg) ∧
    extractEmails [] = [] := by
  constructor
  · intro disp role text hws
    have h0 : jsTrim text = [] :=
      (jsTrim_eq_nil_iff text).mpr (List.all_eq_true.mp hws)
    unfold validateEmails
    rw [h0]
    rfl
  · rfl

/-- Witness for C5 at the inputs `"   \n "` and `""`. -/
theorem claim_C5_empty_input_guard_witness :
    validateEmails disposableDomains roleBasedEmails
      (String.toList "   \n ") = Except.error inputRequiredMsg ∧
    extractEmails (String.toList "") = [] :=
  ⟨claim_C5_empty_input_guard.1 _ _ _ (by decide),
    claim_C5_empty_input_guard.2⟩

/-- C10: a token passing the strict pattern contains an `@`, so its split
has at least two parts and the element lookups at indices 0 and 1 are
defined — the undefined branch of the set lookups is unreachable. -/
theorem claim_C10_split_defined (e : List Char) (h : emailRegexTest e = true) :
    '@' ∈ e ∧ 2 ≤ (splitOnChar '@' e).length ∧
      ((splitOnChar '@' e).get? 0).isSome = true ∧
      ((splitOnChar '@' e).get? 1).isSome = true := by
  obtain ⟨x, y, hxy, -, -⟩ := (emailRegexTest_iff e).mp h
  have hat : '@' ∈ e := by
    rw [hxy]
    exact List.mem_append_right _ (List.mem_cons_self _ _)
  have hlen := splitOnChar_length2 '@' e hat
  refine ⟨hat, hlen, ?_, ?_⟩
  · rcases hg : (splitOnChar '@' e).get? 0 with _ | v
    · have := List.get?_eq_none.mp hg
      omega
    · rfl
  · rcases hg : (splitOnChar '@' e).get? 1 with _ | v
    · have := List.get?_eq_none.mp hg
      omega
    · rfl

/-- Witness for C10 at the token `"a@b.com"`. -/
theorem claim_C10_split_defined_witness :
    emailRegexTest (String.toList "a@b.com") = true ∧
    ('@' ∈ String.toList "a@b.com" ∧
      2 ≤ (splitOnChar '@' (String.toList "a@b.com")).length ∧
      ((splitOnChar '@' (String.toList "a@b.com")).get? 0).isSome = true ∧
      ((splitOnChar '@' (String.toList "a@b.com")).get? 1).isSome = true) :=
  ⟨by decide, claim_C10_split_defined _ (by decide)⟩

/-- C9: the extractor's loose pattern and the validator's strict pattern
genuinely diverge: `"a@b_c.com"` is reported as a found email by the
extractor (underscores are word characters there) but is classified as
invalid by the validator (underscores are not hostname label characters). -/
theorem claim_C9_pattern_divergence :
    extractEmails (String.toList "a@b_c.com") = ["a@b_c.com"] ∧
    emailRegexTest (String.toList "a@b_c.com") = false ∧
    validateEmails disposableDomains roleBasedEmails
        (String.toList "a@b_c.com") =
      Except.ok (ValidationResult.mk [] [String.toList "a@b_c.com"] [] 0 1) :=
  ⟨rfl, by decide, rfl⟩

/-- C3 is refuted: the token `"a@b"@c.com` contains two `@` characters, yet
it passes the strict pattern through the quoted local-part alternative and
is placed in `valid`, not `invalid`. -/
theorem claim_C3_counterexample :
    List.count '@' (String.toList "\"a@b\"@c.com") = 2 ∧
    emailRegexTest (String.toList "\"a@b\"@c.com") = true ∧
    validateEmails disposableDomains roleBasedEmails
        (String.toList "\"a@b\"@c.com") =
      Except.ok (ValidationResult.mk [String.toList "\"a@b\"@c.com"] [] [] 0 1) :=
  ⟨by decide, by decide, rfl⟩

/-- C3 (amended): every unique token with more than one `@` character and
no quote character fails the strict pattern and is placed in the invalid
list. -/
theorem claim_C3_amended (disp role : List (List Char)) (text : List Char)
    (res : ValidationResult) (e : List Char)
    (h : validateEmails disp role text = Except.ok res)
    (he : e ∈ uniqueTokens text) (h2 : 2 ≤ List.count '@' e)
    (hq : '"' ∉ e) : e ∈ res.invalid := by
  obtain ⟨-, hi, -, -, -⟩ := validateEmails_ok_elim disp role text res h
  rw [hi, List.mem_filter]
  refine ⟨he, ?_⟩
  rw [multi_at_fails e h2 hq]
  rfl

/-- Witness for the amended C3 at the input `"a@b@c.com"`. -/
theorem claim_C3_amended_witness :
    validateEmails disposableDomains roleBasedEmails
        (String.toList "a@b@c.com") =
      Except.ok (ValidationResult.mk [] [String.toList "a@b@c.com"] [] 0 1) ∧
    String.toList "a@b@c.com" ∈ uniqueTokens (String.toList "a@b@c.com") ∧
    2 ≤ List.count '@' (String.toList "a@b@c.com") ∧
    '"' ∉ String.toList "a@b@c.com" ∧
    String.toList "a@b@c.com" ∈
      (ValidationResult.mk [] [String.toList "a@b@c.com"] [] 0 1).invalid :=
  ⟨rfl, by decide, by decide, by decide,
    claim_C3_amended disposableDomains roleBasedEmails
      (String.toList "a@b@c.com") _ (String.toList "a@b@c.com") rfl
      (by decide) (by decide) (by decide)⟩

/-- C2 is refuted: the unique token `"a@b"@mailinator.com` passes the
strict pattern and its domain at the last `@` is in the disposable set, yet
the code looks up `split('@')[1]`, the segment between the first and second
`@`, so the token lands in `valid` and `risky` stays empty. -/
theorem claim_C2_counterexample :
    emailRegexTest (String.toList "\"a@b\"@mailinator.com") = true ∧
    lastAtDomain (String.toList "\"a@b\"@mailinator.com") ∈ disposableDomains ∧
    validateEmails disposableDomains roleBasedEmails
        (String.toList "\"a@b\"@mailinator.com") =
      Except.ok (ValidationResult.mk
        [String.toList "\"a@b\"@mailinator.com"] [] [] 0 1) :=
  ⟨by decide, by decide, rfl⟩

/-- C2 (amended): the token is split at the first `@` (JS `split('@')`:
element 0 is the local part, element 1 the segment between the first and
second `@`; for tokens with a single `@` this is the last-`@` split); the
risky list holds exactly the unique pattern-passing tokens whose element 1
is a disposable domain or whose element 0 is a role-based local part, and
the valid list exactly the remaining pattern-passing unique tokens. -/
theorem claim_C2_amended (disp role : List (List Char)) (text : List Char)
    (res : ValidationResult)
    (h : validateEmails disp role text = Except.ok res) :
    res.risky = (uniqueTokens text).filter (fun e => emailRegexTest e &&
      (optMemL disp ((splitOnChar '@' e).get? 1) ||
        optMemL role ((splitOnChar '@' e).get? 0))) ∧
    res.valid = (uniqueTokens text).filter (fun e => emailRegexTest e &&
      !(optMemL disp ((splitOnChar '@' e).get? 1) ||
        optMemL role ((splitOnChar '@' e).get? 0))) := by
  obtain ⟨hv, -, hr, -, -⟩ := validateEmails_ok_elim disp role text res h
  exact ⟨hr, hv⟩

/-- Witness for the amended C2 at the input `"x@mailinator.com"`. -/
theorem claim_C2_amended_witness :
    validateEmails disposableDomains roleBasedEmails
        (String.toList "x@mailinator.com") =
      Except.ok (ValidationResult.mk [] []
        [String.toList "x@mailinator.com"] 0 1) ∧
    ((ValidationResult.mk [] [] [String.toList "x@mailinator.com"] 0 1).risky =
      (uniqueTokens (String.toList "x@mailinator.com")).filter
        (fun e => emailRegexTest e &&
          (optMemL disposableDomains ((splitOnChar '@' e).get? 1) ||
            optMemL roleBasedEmails ((splitOnChar '@' e).get? 0))) ∧
      (ValidationResult.mk [] [] [String.toList "x@mailinator.com"] 0 1).valid =
      (uniqueTokens (String.toList "x@mailinator.com")).filter
        (fun e => emailRegexTest e &&
          !(optMemL disposableDomains ((splitOnChar '@' e).get? 1) ||
            optMemL roleBasedEmails ((splitOnChar '@' e).get? 0)))) :=
  ⟨rfl, claim_C2_amended disposableDomains roleBasedEmails
    (String.toList "x@mailinator.com") _ rfl⟩

/-- C4 is refuted: on the input `",a"` the split produces two raw parts
(the empty token from the leading comma is later discarded), but the code
filters the empty token out before counting, so the reported total is 1,
not the raw count 2. -/
theorem claim_C4_counterexample :
    (rawSplit (String.toList ",a")).length = 2 ∧
    validateEmails disposableDomains roleBasedEmails (String.toList ",a") =
      Except.ok (ValidationResult.mk [] [String.toList "a"] [] 0 1) :=
  ⟨by decide, rfl⟩

/-- C4 (amended): the total is the number of non-empty tokens — the maximal
runs of non-separator characters; empty tokens arising from leading or
trailing separators are discarded before counting — and the duplicate count
is that total minus the number of unique tokens after trimming and
lowercasing. -/
theorem claim_C4_amended (disp role : List (List Char)) (text : List Char)
    (res : ValidationResult)
    (h : validateEmails disp role text = Except.ok res) :
    res.total = (tokens text).length ∧
    res.duplicates = (tokens text).length -
      (firstDedupAux []
        ((tokens text).map (fun e => (jsTrim e).map jsLower))).length := by
  obtain ⟨-, -, -, hd, ht⟩ := validateEmails_ok_elim disp role text res h
  have hb := emailTokens_eq_tokens text
  constructor
  · rw [ht, hb]
  · rw [hd]
    unfold uniqueTokens
    rw [hb]

/-- Witness for the amended C4 at the input `",a"`. -/
theorem claim_C4_amended_witness :
    validateEmails disposableDomains roleBasedEmails (String.toList ",a") =
      Except.ok (ValidationResult.mk [] [String.toList "a"] [] 0 1) ∧
    ((ValidationResult.mk [] [String.toList "a"] [] 0 1).total =
      (tokens (String.toList ",a")).length ∧
    (ValidationResult.mk [] [String.toList "a"] [] 0 1).duplicates =
      (tokens (String.toList ",a")).length -
      (firstDedupAux [] ((tokens (String.toList ",a")).map
        (fun e => (jsTrim e).map jsLower))).length) :=
  ⟨rfl, claim_C4_amended disposableDomains roleBasedEmails
    (String.toList ",a") _ rfl⟩

/-- C7: for every input text the extraction output has no duplicates,
consists only of lowercase strings (lowering fixes every entry), and is
sorted lexicographically ascending. -/
theorem claim_C7_extraction_output (text : List Char) :
    (extractEmails text).Nodup ∧
      (extractEmails text).map strLower = extractEmails text ∧
      List.Sorted (fun a b : String => a ≤ b) (extractEmails text) := by
  by_cases hb : (jsTrim text).isEmpty = true
  · unfold extractEmails
    rw [if_pos hb]
    exact ⟨List.nodup_nil, rfl, List.sorted_nil⟩
  · have hE : extractEmails text = extractCore text := by
      unfold extractEmails
      rw [if_neg hb]
    rw [hE]
    refine ⟨extractCore_nodup text, ?_, extractCore_sorted text⟩
    have hid : ∀ x ∈ extractCore text, strLower x = x := by
      intro x hx
      unfold strLower
      rw [extractCore_lower text x hx, mk_toList]
    calc (extractCore text).map strLower
        = (extractCore text).map id := List.map_congr_left hid
      _ = extractCore text := List.map_id _

/-- C6: extraction is idempotent — extracting from the newline-join of a
previous extraction's output yields exactly that output again. -/
theorem claim_C6_idempotent_extraction (text : List Char) :
    extractEmails (joinNL ((extractEmails text).map String.toList)) =
      extractEmails text := by
  by_cases hblank : (jsTrim text).isEmpty = true
  · have hE : extractEmails text = [] := by
      unfold extractEmails
      rw [if_pos hblank]
    rw [hE]
    rfl
  · have hE : extractEmails text = extractCore text := by
      unfold extractEmails
      rw [if_neg hblank]
    rw [hE]
    rcases hEe : extractCore text with _ | ⟨e0, E'⟩
    · rfl
    · have hpure : ∀ m ∈ (e0 :: E').map String.toList, PureMatch m := by
        intro m hm
        obtain ⟨x, hx, hxm⟩ := List.mem_map.mp hm
        have hx2 : x ∈ extractCore text := by
          rw [hEe]
          exact hx
        obtain ⟨m2, hm2, hmx⟩ := extractCore_mem text x hx2
        rw [← hxm, hmx, toList_mk]
        exact pureMatch_map_lower m2 (scanMatches_pure text m2 hm2)
      have hscan : scanMatches (joinNL ((e0 :: E').map String.toList)) =
          (e0 :: E').map String.toList :=
        scanMatches_joinNL _ hpure
      have he0 : e0 ∈ extractCore text := by
        rw [hEe]
        exact List.mem_cons_self _ _
      obtain ⟨m0, hm0, he0m⟩ := extractCore_mem text e0 he0
      have he0p : PureMatch e0.toList := by
        rw [he0m, toList_mk]
        exact pureMatch_map_lower m0 (scanMatches_pure text m0 hm0)
      obtain ⟨a, r, he0e, ha, haW, -, -⟩ := he0p
      have hguard : (jsTrim (joinNL ((e0 :: E').map String.toList))).isEmpty
          = false := by
        cases a with
        | nil => exact absurd rfl ha
        | cons a1 as =>
          have hhead : (joinNL ((e0 :: E').map String.toList)).head? =
              some a1 := by
            rw [List.map_cons]
            apply joinNL_cons_head
            rw [he0e]
            rfl
          refine jsTrim_ne_nil_of_head _ a1 hhead (isW_not_ws a1 ?_)
          rw [List.all_cons, Bool.and_eq_true] at haW
          exact haW.1
      unfold extractEmails
      rw [if_neg (by rw [hguard]; exact Bool.false_ne_true)]
      unfold extractCore
      rw [hscan]
      have hmapid : ((e0 :: E').map String.toList).map
          (fun m => String.mk (m.map jsLower)) = e0 :: E' := by
        rw [List.map_map]
        have hid : ∀ x ∈ e0 :: E',
            ((fun m => String.mk (m.map jsLower)) ∘ String.toList) x = x := by
          intro x hx
          have hx2 : x ∈ extractCore text := by
            rw [hEe]
            exact hx
          simp only [Function.comp_apply]
          rw [extractCore_lower text x hx2, mk_toList]
        calc ((e0 :: E').map
              ((fun m => String.mk (m.map jsLower)) ∘ String.toList))
            = (e0 :: E').map id := List.map_congr_left hid
          _ = e0 :: E' := List.map_id _
      rw [hmapid]
      have hnd : (e0 :: E').Nodup := by
        rw [← hEe]
        exact extractCore_nodup text
      rw [firstDedupAux_eq_self [] _ hnd (fun x _ => List.not_mem_nil x)]
      have hsort : List.Sorted (fun a b : String => a ≤ b) (e0 :: E') := by
        rw [← hEe]
        exact extractCore_sorted text
      exact List.Sorted.insertionSort_eq hsort
